import Mathlib

/-!
Verification of the Merkle-tree / validator-set / voting-power core of the
blobstreamx repository against its natural-language specification.

The Rust source expresses the algorithms twice: once as plain functions over
bytes (`src/merkle.rs`, `src/inputs.rs`) and once as arithmetic-circuit gate
construction (`src/validator.rs`, `src/commitment.rs`, `src/step.rs`).  The
shallow embedding below translates both forms into executable Lean functions:

* bytes are `Nat` (each byte value `< 256` where it matters, stated as
  hypotheses), byte strings are `List Nat`;
* the SHA-256 leaf/inner hashers are kept abstract, mirroring the
  `H : MerkleHash + Default` type parameter of `merkle.rs` (the repository
  instantiates `H = Sha256`); collision-freeness of the hash is expressed as
  injectivity hypotheses where a claim needs it;
* circuit constraints (`connect`, `assert_zero_u32`) become `Option`-valued
  failures: a gate assertion that cannot be satisfied is `none`;
* `u32` limbs are `Nat` with explicit `% 2^32` arithmetic.
-/

/-- The `2^32` limb modulus used by the two-limb (`I64Target`) arithmetic of
`validator.rs`. -/
def U32_MOD : Nat := 4294967296

/-- `get_split_point` from `src/merkle.rs`: the size of the left subtree for a
tree with `length` leaves.  The source computes `bitlen` as
`(length as f64).log2() as usize`, which equals `Nat.log2 length` for every
attainable list length (it can diverge only beyond `2^53 - 64` elements, far
past any materializable slice); the source panics for `length < 1`, a case its
callers never reach, embedded here as `0`. -/
def get_split_point (length : Nat) : Nat :=
  if length < 1 then 0
  else
    let bitlen := Nat.log2 length
    let k := 2 ^ bitlen
    if k = length then k / 2 else k

theorem get_split_point_of_le {n : Nat} (h : 1 ≤ n) :
    get_split_point n =
      if 2 ^ Nat.log2 n = n then 2 ^ Nat.log2 n / 2 else 2 ^ Nat.log2 n := by
  unfold get_split_point
  have h1 : ¬ n < 1 := by omega
  simp [h1]

theorem log2_pos_of_two_le {n : Nat} (h : 2 ≤ n) : 1 ≤ Nat.log2 n :=
  (Nat.le_log2 (n := n) (by omega)).mpr (by simpa using h)

theorem get_split_point_pos {n : Nat} (h : 1 < n) : 0 < get_split_point n := by
  rw [get_split_point_of_le (by omega)]
  have h2 : 1 ≤ Nat.log2 n := log2_pos_of_two_le h
  split
  · have : (2:Nat) ^ 1 ≤ 2 ^ Nat.log2 n := Nat.pow_le_pow_right (by omega) h2
    omega
  · positivity

theorem get_split_point_lt {n : Nat} (h : 1 < n) : get_split_point n < n := by
  rw [get_split_point_of_le (by omega)]
  have hle : 2 ^ Nat.log2 n ≤ n := Nat.log2_self_le (by omega)
  split
  · rename_i heq
    have h2 : 1 ≤ Nat.log2 n := log2_pos_of_two_le h
    have : (2:Nat) ^ 1 ≤ 2 ^ Nat.log2 n := Nat.pow_le_pow_right (by omega) h2
    omega
  · rename_i hne
    omega

/-- Result of `Proof::verify` in `src/merkle.rs`.  The Rust function returns
`Result<(), Box<dyn Error>>` but calls `.expect(..)` on `compute_root_hash()`,
so it has three observable outcomes: success, an error value, or a panic. -/
inductive VerifyResult where
  | ok : VerifyResult
  | fail : VerifyResult
  | panicked : VerifyResult
deriving DecidableEq, Repr

/-- `Proof` from `src/merkle.rs`: an inclusion proof for leaf `index` of a
tree with `total` leaves; `aunts` are the sibling hashes from the leaf level
up to the root. -/
structure MerkleProof where
  total : Nat
  index : Nat
  leaf_hash : List Nat
  aunts : List (List Nat)
deriving DecidableEq, Repr

section MerkleEngine

variable (leafH : List Nat → List Nat) (innerH : List Nat → List Nat → List Nat)
variable (emptyH : List Nat)

/-- `compute_hash_from_aunts` from `src/merkle.rs`: recompute the root hash
from a leaf hash and the aunt hashes, `none` on a malformed shape.  The `0`
arm of the Rust `match` is dead code (guarded by the first check). -/
def compute_hash_from_aunts (index total : Nat) (leaf_hash : List Nat)
    (inner_hashes : List (List Nat)) : Option (List Nat) :=
  if h0 : total ≤ index ∨ total = 0 then none
  else if h1 : total = 1 then
    if inner_hashes.isEmpty then some leaf_hash else none
  else if h2 : inner_hashes.isEmpty then none
  else
    let num_left := get_split_point total
    if index < num_left then
      match compute_hash_from_aunts index num_left leaf_hash inner_hashes.dropLast with
      | none => none
      | some h => some (innerH h (inner_hashes.getLastD []))
    else
      match compute_hash_from_aunts (index - num_left) (total - num_left) leaf_hash
          inner_hashes.dropLast with
      | none => none
      | some h => some (innerH (inner_hashes.getLastD []) h)
termination_by total
decreasing_by
  · exact get_split_point_lt (by omega)
  · have := get_split_point_pos (n := total) (by omega)
    omega

/-- `trails_from_byte_slices` from `src/merkle.rs`, with `flatten_aunts`
already applied: for each leaf it returns the pair of its leaf hash and its
aunt list (sibling hashes, leaf level first), together with the root hash.
The source builds a pointer tree in which every node stores its sibling and
parent; walking a leaf's parent chain collects exactly the sibling subtree
roots appended here at each recursive return. -/
def trails_from_byte_slices : List (List Nat) → List (List Nat × List (List Nat)) × List Nat
  | [] => ([], emptyH)
  | [x] => ([(leafH x, [])], leafH x)
  | x :: y :: rest =>
    let items := x :: y :: rest
    let k := get_split_point items.length
    let left := trails_from_byte_slices (items.take k)
    let right := trails_from_byte_slices (items.drop k)
    ((left.1.map fun e => (e.1, e.2 ++ [right.2])) ++
      (right.1.map fun e => (e.1, e.2 ++ [left.2])),
     innerH left.2 right.2)
termination_by items => items.length
decreasing_by
  · simp only [List.length_take]
    have h2 : 1 < (x :: y :: rest).length := by simp
    have := get_split_point_lt h2
    have := get_split_point_pos h2
    omega
  · simp only [List.length_drop]
    have h2 : 1 < (x :: y :: rest).length := by simp
    have := get_split_point_lt h2
    have := get_split_point_pos h2
    omega

/-- `proofs_from_byte_slices` from `src/merkle.rs`: the root hash and one
`MerkleProof` per leaf. -/
def proofs_from_byte_slices (items : List (List Nat)) : List Nat × List MerkleProof :=
  let tr := trails_from_byte_slices leafH innerH emptyH items
  (tr.2, tr.1.mapIdx fun i e => ⟨items.length, i, e.1, e.2⟩)

/-- `Proof::verify` from `src/merkle.rs`: recompute the leaf hash and the
root; an `.expect` panic when `compute_hash_from_aunts` returns `None`. -/
def MerkleProof.verify (p : MerkleProof) (root_hash : List Nat) (leaf : List Nat) :
    VerifyResult :=
  let computed_leaf_hash := leafH leaf
  if p.leaf_hash ≠ computed_leaf_hash then .fail
  else
    match compute_hash_from_aunts innerH p.index p.total p.leaf_hash p.aunts with
    | none => .panicked
    | some computed => if computed ≠ root_hash then .fail else .ok

end MerkleEngine

/-- The left/right orientation bits consumed by `compute_hash_from_aunts`,
listed from the leaf level up (bit `i` belongs to aunt `i`): `true` means the
running hash is the right child at that level. -/
def verify_path (index total : Nat) : List Bool :=
  if h : total ≤ 1 then []
  else
    let k := get_split_point total
    if index < k then verify_path index k ++ [false]
    else verify_path (index - k) (total - k) ++ [true]
termination_by total
decreasing_by
  · exact get_split_point_lt (by omega)
  · have := get_split_point_pos (n := total) (by omega)
    omega

/-- The number of aunts a well-formed proof for `(index, total)` must have. -/
def aunts_depth (index total : Nat) : Nat := (verify_path index total).length

/-- The loop of `get_path_indices` from `src/inputs.rs`. -/
def path_indices_loop (current_total current_index : Nat) : List Bool :=
  if h : 1 ≤ current_total then
    decide (current_index % 2 = 1) ::
      path_indices_loop (current_total / 2) (current_index / 2)
  else []
termination_by current_total
decreasing_by
  exact Nat.div_lt_self (by omega) (by omega)

/-- `get_path_indices` from `src/inputs.rs`: starts the halving loop at
`total - 1`. -/
def get_path_indices (index total : Nat) : List Bool :=
  path_indices_loop (total - 1) index

/-- A concrete injective leaf hasher used to evaluate the engine on closed
inputs (the repository instantiates SHA-256; the tag `0` mirrors the `0x00`
leaf domain-separation byte). -/
def leafH0 (bs : List Nat) : List Nat := 0 :: bs

/-- A concrete pairwise-injective inner hasher used to evaluate the engine on
closed inputs (tag `1` mirrors the `0x01` inner domain-separation byte; the
recorded length makes the pairing unambiguous). -/
def innerH0 (l r : List Nat) : List Nat := 1 :: l.length :: (l ++ r)

/-- A concrete stand-in for `empty_hash()` (SHA-256 of the empty string). -/
def emptyH0 : List Nat := [2]

/-- `hash_merkle_layer` from `src/validator.rs` (identical logic in
`src/commitment.rs`): one pairwise reduction layer.  For each adjacent pair
the parent hash is the inner hash when both nodes are enabled and otherwise
the left child's hash (`merkle_hashes[i]`); the parent is disabled exactly
when both children are disabled. -/
def hash_merkle_layer (innerH : List Nat → List Nat → List Nat) :
    List (List Nat) → List Bool → List (List Nat) × List Bool
  | h1 :: h2 :: hs, e1 :: e2 :: es =>
    let rest := hash_merkle_layer innerH hs es
    ((if e1 && e2 then innerH h1 h2 else h1) :: rest.1, (e1 || e2) :: rest.2)
  | _, _ => ([], [])

/-- `I64Target` from `src/validator.rs`: a 64-bit quantity as two `u32`
limbs, little-endian. -/
structure I64 where
  lo : Nat
  hi : Nat
deriving DecidableEq, Repr

/-- The 64-bit value an `I64Target` denotes. -/
def I64.val (x : I64) : Nat := x.lo + U32_MOD * x.hi

/-- plonky2 `mul_u32`: product decomposed as `(low, carry)` limbs. -/
def mul_u32 (a b : Nat) : Nat × Nat := (a * b % U32_MOD, a * b / U32_MOD)

/-- plonky2 `add_u32`: sum decomposed as `(low, carry)` limbs. -/
def add_u32 (a b : Nat) : Nat × Nat := ((a + b) % U32_MOD, (a + b) / U32_MOD)

/-- plonky2 `mul_add_u32`: `a * b + c` decomposed as `(low, carry)` limbs. -/
def mul_add_u32 (a b c : Nat) : Nat × Nat :=
  ((a * b + c) % U32_MOD, (a * b + c) / U32_MOD)

/-- plonky2 `add_many_u32`: sum of a list decomposed as `(low, carry)`. -/
def add_many_u32 (xs : List Nat) : Nat × Nat := (xs.sum % U32_MOD, xs.sum / U32_MOD)

/-- plonky2 `sub_u32` with borrow-in: wrapping difference and borrow-out. -/
def sub_u32 (a b brw : Nat) : Nat × Nat :=
  ((a + U32_MOD - (b + brw)) % U32_MOD, if a < b + brw then 1 else 0)

/-- `mul_i64_by_u32` from `src/validator.rs`; the two `assert_zero_u32`
overflow checks become `none`. -/
def mul_i64_by_u32 (a : I64) (b : Nat) : Option I64 :=
  let lower := mul_u32 a.lo b
  let upper := mul_u32 a.hi b
  if upper.2 ≠ 0 then none
  else
    let s := add_u32 upper.1 lower.2
    if s.2 ≠ 0 then none
    else some ⟨lower.1, s.1⟩

/-- `is_i64_gte` from `src/validator.rs`: two-limb greater-or-equal. -/
def is_i64_gte (a b : I64) : Bool :=
  let high := sub_u32 a.hi b.hi 0
  let no_underflow_high := decide (high.2 = 0)
  let upper_equal := decide (high.1 = 0)
  let upper_not_equal := ! upper_equal
  let low := sub_u32 a.lo b.lo 0
  let no_underflow_low := decide (low.2 = 0)
  (upper_not_equal && no_underflow_high) || (upper_equal && no_underflow_low)

/-- `voting_power_greater_than_threshold` from `src/validator.rs`:
`accumulated * denominator >= total * numerator` on two-limb values, `none`
when either overflow-checked product fails. -/
def voting_power_greater_than_threshold (accumulated_power total_voting_power : I64)
    (threshold_numerator threshold_denominator : Nat) : Option Bool :=
  match mul_i64_by_u32 accumulated_power threshold_denominator with
  | none => none
  | some scaled_accumulated =>
    match mul_i64_by_u32 total_voting_power threshold_numerator with
    | none => none
    | some scaled_total => some (is_i64_gte scaled_accumulated scaled_total)

/-- `get_total_voting_power` from `src/validator.rs`: limb-wise sums with the
two `assert_zero_u32` overflow checks as `none`. -/
def get_total_voting_power (validator_voting_power : List I64) : Option I64 :=
  let lower := add_many_u32 (validator_voting_power.map (fun v => v.lo))
  let upper := add_many_u32 (validator_voting_power.map (fun v => v.hi))
  if upper.2 ≠ 0 then none
  else
    let carry := add_u32 lower.2 upper.1
    if carry.2 ≠ 0 then none
    else some ⟨lower.1, carry.1⟩

/-- One iteration of the accumulation loop in `check_voting_power`
(`src/validator.rs`): add `voting_power * enabled` into the accumulator with
the two `assert_zero_u32` overflow checks as `none`. -/
def accumulate_step (acc voting_power : I64) (enabled : Nat) : Option I64 :=
  let sum_lower := mul_add_u32 voting_power.lo enabled acc.lo
  let carry_sum := add_u32 sum_lower.2 voting_power.hi
  if carry_sum.2 ≠ 0 then none
  else
    let sum_upper := mul_add_u32 carry_sum.1 enabled acc.hi
    if sum_upper.2 ≠ 0 then none
    else some ⟨sum_lower.1, sum_upper.1⟩

/-- The accumulation loop of `check_voting_power`, folded over the
`(voting_power, enabled)` pairs. -/
def accumulate_voting_power : List (I64 × Nat) → I64 → Option I64
  | [], acc => some acc
  | (vp, e) :: rest, acc =>
    match accumulate_step acc vp e with
    | none => none
    | some acc2 => accumulate_voting_power rest acc2

/-- `check_voting_power` from `src/validator.rs`: accumulate the enabled
validators voting power, then compare against the threshold. -/
def check_voting_power (validator_voting_power : List I64) (validator_enabled : List Nat)
    (total_voting_power : I64) (threshold_numerator threshold_denominator : Nat) :
    Option Bool :=
  match accumulate_voting_power (validator_voting_power.zip validator_enabled) ⟨0, 0⟩ with
  | none => none
  | some acc =>
    voting_power_greater_than_threshold acc total_voting_power threshold_numerator
      threshold_denominator

/-- The `i`-th 7-bit payload group of `v` (`marshal_int64_varint` builds these
from the little-endian bits of the two voting-power limbs). -/
def septet (v i : Nat) : Nat := v / 128 ^ i % 128

/-- The index of the last non-zero septet, default `0`, exactly as the
select-scan in `marshal_int64_varint` computes it. -/
def last_nonzero_septet (v : Nat) : Nat := Nat.findGreatest (fun i => septet v i ≠ 0) 8

/-- The 9-byte buffer produced by `marshal_int64_varint`
(`src/validator.rs`): byte `i` carries septet `i`, with the continuation
(most significant) bit set exactly for bytes before the last non-zero
septet. -/
def marshal_bytes (v : Nat) : List Nat :=
  (List.range 9).map fun i => septet v i + if i < last_nonzero_septet v then 128 else 0

/-- `marshal_int64_varint` from `src/validator.rs`: the circuit asserts that
bit 63 of the voting power is zero, then emits the 9-byte varint buffer. -/
def marshal_int64_varint (v : Nat) : Option (List Nat) :=
  if v.testBit 63 then none else some (marshal_bytes v)

/-- The varint proper inside the `marshal_int64_varint` buffer: its prefix up
to and including the first byte with a clear continuation bit (the remaining
buffer bytes are zero padding, as the repository test asserts). -/
def encode_varint (v : Nat) : List Nat :=
  (marshal_bytes v).take (last_nonzero_septet v + 1)

/-- Modelled from the spec: protobuf varint decoding (7-bit little-endian
payload groups, most significant bit of each byte set iff more groups
follow).  The repository contains only the encoder; the decoder referenced by
the round-trip property is external. -/
def decode_varint : List Nat → Option Nat
  | [] => none
  | b :: rest =>
    if b < 128 then some b
    else (decode_varint rest).map fun r => b % 128 + 128 * r

/-- Bit `i` (most significant first within each byte, matching the circuit's
`to_bits`) of a byte string. -/
def bit_at (bytes : List Nat) (i : Nat) : Bool :=
  Nat.testBit (bytes.getD (i / 8) 0) (7 - i % 8)

/-- `verify_hash_in_message` from `src/validator.rs`: the circuit connects,
for every one of the 256 hash bits, the bit selected by
`round_present_in_message` (message bit `25*8+i` if a round is present, bit
`16*8+i` otherwise) with header-hash bit `i`; the constraints are satisfiable
iff this conjunction holds. -/
def verify_hash_in_message (message header_hash : List Nat) (round_present : Bool) : Bool :=
  (List.range 256).all fun i =>
    (if round_present then bit_at message (25 * 8 + i)
     else bit_at message (16 * 8 + i)) == bit_at header_hash i

theorem list_dropLast_append_getLastD {α : Type} {l : List α} (d : α) (h : l ≠ []) :
    l.dropLast ++ [l.getLastD d] = l := by
  rw [List.getLastD_eq_getLast?, List.getLast?_eq_getLast l h]
  exact List.dropLast_append_getLast h

theorem verify_path_of_le_one {index total : Nat} (h : total ≤ 1) :
    verify_path index total = [] := by
  rw [verify_path]
  simp [h]

theorem verify_path_of_lt {index total : Nat} (h : 1 < total)
    (hi : index < get_split_point total) :
    verify_path index total = verify_path index (get_split_point total) ++ [false] := by
  rw [verify_path]
  simp only [dif_neg (by omega : ¬ total ≤ 1)]
  simp [hi]

theorem verify_path_of_ge {index total : Nat} (h : 1 < total)
    (hi : ¬ index < get_split_point total) :
    verify_path index total =
      verify_path (index - get_split_point total) (total - get_split_point total) ++ [true] := by
  rw [verify_path]
  simp only [dif_neg (by omega : ¬ total ≤ 1)]
  simp [hi]

theorem aunts_depth_of_le_one {index total : Nat} (h : total ≤ 1) :
    aunts_depth index total = 0 := by
  simp [aunts_depth, verify_path_of_le_one h]

theorem aunts_depth_of_lt {index total : Nat} (h : 1 < total)
    (hi : index < get_split_point total) :
    aunts_depth index total = aunts_depth index (get_split_point total) + 1 := by
  simp [aunts_depth, verify_path_of_lt h hi]

theorem aunts_depth_of_ge {index total : Nat} (h : 1 < total)
    (hi : ¬ index < get_split_point total) :
    aunts_depth index total =
      aunts_depth (index - get_split_point total) (total - get_split_point total) + 1 := by
  simp [aunts_depth, verify_path_of_ge h hi]

theorem compute_hash_from_aunts_isSome (innerH : List Nat → List Nat → List Nat) :
    ∀ (total index : Nat) (lh : List Nat) (aunts : List (List Nat)),
      (compute_hash_from_aunts innerH index total lh aunts).isSome = true ↔
        (index < total ∧ aunts.length = aunts_depth index total) := by
  intro total
  induction total using Nat.strong_induction_on with
  | _ total IH =>
    intro index lh aunts
    rw [compute_hash_from_aunts]
    by_cases h0 : total ≤ index ∨ total = 0
    · rw [dif_pos h0]
      simp only [Option.isSome_none]
      constructor
      · intro hc
        simp at hc
      · intro ⟨hc, _⟩
        omega
    · rw [dif_neg h0]
      by_cases h1 : total = 1
      · rw [dif_pos h1]
        subst h1
        rw [aunts_depth_of_le_one (by omega)]
        by_cases ha : aunts.isEmpty
        · rw [if_pos ha]
          rw [List.isEmpty_iff] at ha
          simp [ha]
          omega
        · rw [if_neg ha]
          rw [List.isEmpty_iff] at ha
          simp only [Option.isSome_none]
          constructor
          · intro hc
            simp at hc
          · intro ⟨_, hlen⟩
            exact (ha (List.length_eq_zero.mp hlen)).elim
      · rw [dif_neg h1]
        have htot : 1 < total := by omega
        have hk1 : 0 < get_split_point total := get_split_point_pos htot
        have hk2 : get_split_point total < total := get_split_point_lt htot
        by_cases ha : aunts.isEmpty
        · rw [dif_pos ha]
          rw [List.isEmpty_iff] at ha
          subst ha
          simp only [Option.isSome_none, List.length_nil]
          constructor
          · intro hc
            simp at hc
          · intro ⟨_, hlen⟩
            by_cases hlt : index < get_split_point total
            · rw [aunts_depth_of_lt htot hlt] at hlen
              omega
            · rw [aunts_depth_of_ge htot hlt] at hlen
              omega
        · rw [dif_neg ha]
          rw [List.isEmpty_iff] at ha
          have hlen1 : 0 < aunts.length := List.length_pos.mpr ha
          by_cases hlt : index < get_split_point total
          · rw [if_pos hlt]
            rw [aunts_depth_of_lt htot hlt]
            have hIH := IH (get_split_point total) hk2 index lh aunts.dropLast
            cases hrec : compute_hash_from_aunts innerH index (get_split_point total) lh
                aunts.dropLast with
            | none =>
              rw [hrec] at hIH
              have hP : ¬ (index < get_split_point total ∧
                  aunts.dropLast.length = aunts_depth index (get_split_point total)) := by
                rw [← hIH]
                simp
              simp only [Option.isSome_none]
              constructor
              · intro hc
                simp at hc
              · intro ⟨_, hlen⟩
                exact (hP ⟨hlt, by rw [List.length_dropLast]; omega⟩).elim
            | some hsub =>
              rw [hrec] at hIH
              have hP : index < get_split_point total ∧
                  aunts.dropLast.length = aunts_depth index (get_split_point total) := by
                rw [← hIH]
                simp
              rw [List.length_dropLast] at hP
              simp only [Option.isSome_some, true_iff]
              exact ⟨by omega, by omega⟩
          · rw [if_neg hlt]
            rw [aunts_depth_of_ge htot hlt]
            have hIH := IH (total - get_split_point total) (by omega)
                (index - get_split_point total) lh aunts.dropLast
            cases hrec : compute_hash_from_aunts innerH (index - get_split_point total)
                (total - get_split_point total) lh aunts.dropLast with
            | none =>
              rw [hrec] at hIH
              have hP : ¬ (index - get_split_point total < total - get_split_point total ∧
                  aunts.dropLast.length =
                    aunts_depth (index - get_split_point total)
                      (total - get_split_point total)) := by
                rw [← hIH]
                simp
              simp only [Option.isSome_none]
              constructor
              · intro hc
                simp at hc
              · intro ⟨hidx, hlen⟩
                exact (hP ⟨by omega, by rw [List.length_dropLast]; omega⟩).elim
            | some hsub =>
              rw [hrec] at hIH
              have hP : index - get_split_point total < total - get_split_point total ∧
                  aunts.dropLast.length =
                    aunts_depth (index - get_split_point total)
                      (total - get_split_point total) := by
                rw [← hIH]
                simp
              rw [List.length_dropLast] at hP
              simp only [Option.isSome_some, true_iff]
              exact ⟨by omega, by omega⟩

theorem compute_hash_from_aunts_one (innerH : List Nat → List Nat → List Nat)
    (lh : List Nat) : compute_hash_from_aunts innerH 0 1 lh [] = some lh := by
  rw [compute_hash_from_aunts]
  simp

theorem compute_hash_from_aunts_step_left (innerH : List Nat → List Nat → List Nat)
    {index total : Nat} (htot : 1 < total) (hlt : index < get_split_point total)
    {lh sub : List Nat} {aunts : List (List Nat)}
    (h : compute_hash_from_aunts innerH index (get_split_point total) lh aunts = some sub)
    (r : List Nat) :
    compute_hash_from_aunts innerH index total lh (aunts ++ [r]) = some (innerH sub r) := by
  have hk2 : get_split_point total < total := get_split_point_lt htot
  rw [compute_hash_from_aunts]
  rw [dif_neg (by omega : ¬ (total ≤ index ∨ total = 0)), dif_neg (by omega : ¬ total = 1),
    dif_neg (by simp : ¬ (aunts ++ [r]).isEmpty = true)]
  rw [if_pos hlt, List.dropLast_concat, h]
  simp [List.getLastD_concat]

theorem compute_hash_from_aunts_step_right (innerH : List Nat → List Nat → List Nat)
    {index total : Nat} (htot : 1 < total) (hge : ¬ index < get_split_point total)
    (hidx : index < total) {lh sub : List Nat} {aunts : List (List Nat)}
    (h : compute_hash_from_aunts innerH (index - get_split_point total)
        (total - get_split_point total) lh aunts = some sub)
    (l : List Nat) :
    compute_hash_from_aunts innerH index total lh (aunts ++ [l]) = some (innerH l sub) := by
  rw [compute_hash_from_aunts]
  rw [dif_neg (by omega : ¬ (total ≤ index ∨ total = 0)), dif_neg (by omega : ¬ total = 1),
    dif_neg (by simp : ¬ (aunts ++ [l]).isEmpty = true)]
  rw [if_neg hge, List.dropLast_concat, h]
  simp [List.getLastD_concat]

/-- With a pairwise-injective inner hasher (the collision-freeness the source
obtains from SHA-256), a recomputed root determines the leaf hash and every
aunt hash. -/
theorem compute_hash_from_aunts_inj (innerH : List Nat → List Nat → List Nat)
    (hinner : ∀ a b c d, innerH a b = innerH c d → a = c ∧ b = d) :
    ∀ (total index : Nat) (lh lh2 h : List Nat) (aunts aunts2 : List (List Nat)),
      compute_hash_from_aunts innerH index total lh aunts = some h →
      compute_hash_from_aunts innerH index total lh2 aunts2 = some h →
      lh = lh2 ∧ aunts = aunts2 := by
  intro total
  induction total using Nat.strong_induction_on with
  | _ total IH =>
    intro index lh lh2 h aunts aunts2 hc1 hc2
    rw [compute_hash_from_aunts] at hc1 hc2
    by_cases h0 : total ≤ index ∨ total = 0
    · rw [dif_pos h0] at hc1
      simp at hc1
    · rw [dif_neg h0] at hc1 hc2
      by_cases h1 : total = 1
      · rw [dif_pos h1] at hc1 hc2
        by_cases ha1 : aunts.isEmpty
        · by_cases ha2 : aunts2.isEmpty
          · rw [if_pos ha1] at hc1
            rw [if_pos ha2] at hc2
            rw [List.isEmpty_iff] at ha1 ha2
            refine ⟨?_, by rw [ha1, ha2]⟩
            have e1 := Option.some.inj hc1
            have e2 := Option.some.inj hc2
            rw [e1, e2]
          · rw [if_neg ha2] at hc2
            simp at hc2
        · rw [if_neg ha1] at hc1
          simp at hc1
      · rw [dif_neg h1] at hc1 hc2
        have htot : 1 < total := by omega
        by_cases ha1 : aunts.isEmpty
        · rw [dif_pos ha1] at hc1
          simp at hc1
        · by_cases ha2 : aunts2.isEmpty
          · rw [dif_pos ha2] at hc2
            simp at hc2
          · rw [dif_neg ha1] at hc1
            rw [dif_neg ha2] at hc2
            rw [List.isEmpty_iff] at ha1 ha2
            have hk2 : get_split_point total < total := get_split_point_lt htot
            have hk1 : 0 < get_split_point total := get_split_point_pos htot
            by_cases hlt : index < get_split_point total
            · rw [if_pos hlt] at hc1 hc2
              cases hrec1 : compute_hash_from_aunts innerH index (get_split_point total) lh
                  aunts.dropLast with
              | none =>
                rw [hrec1] at hc1
                simp at hc1
              | some s1 =>
                rw [hrec1] at hc1
                cases hrec2 : compute_hash_from_aunts innerH index (get_split_point total) lh2
                    aunts2.dropLast with
                | none =>
                  rw [hrec2] at hc2
                  simp at hc2
                | some s2 =>
                  rw [hrec2] at hc2
                  have e1 := Option.some.inj hc1
                  have e2 := Option.some.inj hc2
                  have := hinner _ _ _ _ (e1.trans e2.symm)
                  obtain ⟨hs, hlast⟩ := this
                  rw [← hs] at hrec2
                  have hsub := IH (get_split_point total) hk2 index lh lh2 s1
                    aunts.dropLast aunts2.dropLast hrec1 hrec2
                  refine ⟨hsub.1, ?_⟩
                  calc aunts = aunts.dropLast ++ [aunts.getLastD []] :=
                        (list_dropLast_append_getLastD [] ha1).symm
                    _ = aunts2.dropLast ++ [aunts2.getLastD []] := by rw [hsub.2, hlast]
                    _ = aunts2 := list_dropLast_append_getLastD [] ha2
            · rw [if_neg hlt] at hc1 hc2
              cases hrec1 : compute_hash_from_aunts innerH (index - get_split_point total)
                  (total - get_split_point total) lh aunts.dropLast with
              | none =>
                rw [hrec1] at hc1
                simp at hc1
              | some s1 =>
                rw [hrec1] at hc1
                cases hrec2 : compute_hash_from_aunts innerH (index - get_split_point total)
                    (total - get_split_point total) lh2 aunts2.dropLast with
                | none =>
                  rw [hrec2] at hc2
                  simp at hc2
                | some s2 =>
                  rw [hrec2] at hc2
                  have e1 := Option.some.inj hc1
                  have e2 := Option.some.inj hc2
                  have := hinner _ _ _ _ (e1.trans e2.symm)
                  obtain ⟨hlast, hs⟩ := this
                  rw [← hs] at hrec2
                  have hsub := IH (total - get_split_point total) (by omega)
                    (index - get_split_point total) lh lh2 s1
                    aunts.dropLast aunts2.dropLast hrec1 hrec2
                  refine ⟨hsub.1, ?_⟩
                  calc aunts = aunts.dropLast ++ [aunts.getLastD []] :=
                        (list_dropLast_append_getLastD [] ha1).symm
                    _ = aunts2.dropLast ++ [aunts2.getLastD []] := by rw [hsub.2, hlast]
                    _ = aunts2 := list_dropLast_append_getLastD [] ha2

/-- Shape and correctness of `trails_from_byte_slices`: one entry per leaf,
each entry holds the leaf hash of its item, and its aunt list recomputes the
returned root via `compute_hash_from_aunts`. -/
theorem trails_from_byte_slices_spec (leafH : List Nat → List Nat)
    (innerH : List Nat → List Nat → List Nat) (emptyH : List Nat) :
    ∀ (n : Nat) (items : List (List Nat)), items.length = n →
      (trails_from_byte_slices leafH innerH emptyH items).1.length = items.length ∧
      ∀ (i : Nat) (e : List Nat × List (List Nat)),
        (trails_from_byte_slices leafH innerH emptyH items).1[i]? = some e →
          e.1 = leafH (items.getD i []) ∧
          compute_hash_from_aunts innerH i items.length e.1 e.2 =
            some (trails_from_byte_slices leafH innerH emptyH items).2 := by
  intro n
  induction n using Nat.strong_induction_on with
  | _ n IH =>
    intro items hlen
    match items with
    | [] =>
      rw [trails_from_byte_slices]
      refine ⟨rfl, ?_⟩
      intro i e he
      simp at he
    | [x] =>
      rw [trails_from_byte_slices]
      refine ⟨rfl, ?_⟩
      intro i e he
      match i with
      | 0 =>
        simp only [List.getElem?_cons_zero, Option.some.injEq] at he
        subst he
        exact ⟨rfl, compute_hash_from_aunts_one innerH _⟩
      | i + 1 =>
        simp at he
    | x :: y :: rest =>
      have hlen2 : 1 < (x :: y :: rest).length := by simp
      have hk1 : 0 < get_split_point (x :: y :: rest).length := get_split_point_pos hlen2
      have hk2 : get_split_point (x :: y :: rest).length < (x :: y :: rest).length :=
        get_split_point_lt hlen2
      have hlt : (List.take (get_split_point (x :: y :: rest).length)
          (x :: y :: rest)).length = get_split_point (x :: y :: rest).length := by
        rw [List.length_take]
        omega
      have hld : (List.drop (get_split_point (x :: y :: rest).length)
          (x :: y :: rest)).length =
          (x :: y :: rest).length - get_split_point (x :: y :: rest).length := by
        rw [List.length_drop]
      have IHl := IH (get_split_point (x :: y :: rest).length) (by omega)
        (List.take (get_split_point (x :: y :: rest).length) (x :: y :: rest)) hlt
      have IHr := IH ((x :: y :: rest).length - get_split_point (x :: y :: rest).length)
        (by omega)
        (List.drop (get_split_point (x :: y :: rest).length) (x :: y :: rest)) hld
      rw [trails_from_byte_slices]
      constructor
      · simp only [List.length_append, List.length_map]
        rw [IHl.1, IHr.1, hlt, hld]
        omega
      · intro i e he
        simp only [List.getElem?_append, List.length_map, IHl.1, hlt] at he
        by_cases hik : i < get_split_point (x :: y :: rest).length
        · rw [if_pos hik] at he
          rw [List.getElem?_map] at he
          cases hL : (trails_from_byte_slices leafH innerH emptyH
              (List.take (get_split_point (x :: y :: rest).length) (x :: y :: rest))).1[i]? with
          | none =>
            rw [hL] at he
            simp at he
          | some el =>
            rw [hL] at he
            simp only [Option.map_some', Option.some.injEq] at he
            subst he
            obtain ⟨he1, he2⟩ := IHl.2 i el hL
            have hgd : (List.take (get_split_point (x :: y :: rest).length)
                (x :: y :: rest)).getD i [] = (x :: y :: rest).getD i [] := by
              simp only [List.getD_eq_getElem?_getD, List.getElem?_take, if_pos hik]
            rw [hgd] at he1
            rw [hlt] at he2
            refine ⟨he1, ?_⟩
            exact compute_hash_from_aunts_step_left innerH hlen2 hik he2
              (trails_from_byte_slices leafH innerH emptyH
                (List.drop (get_split_point (x :: y :: rest).length) (x :: y :: rest))).2
        · rw [if_neg hik] at he
          rw [List.getElem?_map] at he
          cases hR : (trails_from_byte_slices leafH innerH emptyH
              (List.drop (get_split_point (x :: y :: rest).length)
                (x :: y :: rest))).1[i - get_split_point (x :: y :: rest).length]? with
          | none =>
            rw [hR] at he
            simp at he
          | some er =>
            rw [hR] at he
            simp only [Option.map_some', Option.some.injEq] at he
            subst he
            obtain ⟨he1, he2⟩ := IHr.2 (i - get_split_point (x :: y :: rest).length) er hR
            have hbound := (List.getElem?_eq_some.mp hR).1
            rw [IHr.1, hld] at hbound
            have him : i < (x :: y :: rest).length := by omega
            have hgd : (List.drop (get_split_point (x :: y :: rest).length)
                (x :: y :: rest)).getD (i - get_split_point (x :: y :: rest).length) [] =
                (x :: y :: rest).getD i [] := by
              simp only [List.getD_eq_getElem?_getD, List.getElem?_drop]
              congr 2
              omega
            rw [hgd] at he1
            rw [hld] at he2
            refine ⟨he1, ?_⟩
            exact compute_hash_from_aunts_step_right innerH hlen2 hik him he2
              (trails_from_byte_slices leafH innerH emptyH
                (List.take (get_split_point (x :: y :: rest).length) (x :: y :: rest))).2

theorem leafH0_injective : Function.Injective leafH0 := by
  intro a b h
  simpa [leafH0] using h

theorem innerH0_pair_injective : ∀ a b c d, innerH0 a b = innerH0 c d → a = c ∧ b = d := by
  intro a b c d h
  simp only [innerH0, List.cons.injEq, true_and] at h
  exact List.append_inj h.2 h.1

/-- **C8**: for every `n > 1`, `get_split_point n` is a power of two strictly
between `0` and `n`; it equals `n / 2` whenever `n` is itself a power of two;
and it equals `2 ^ (b - 1)` if `2 ^ b = n` else `2 ^ b`, where
`b = floor(log2 n)`. -/
theorem c8_get_split_point (n : Nat) (h : 1 < n) :
    (∃ b, get_split_point n = 2 ^ b) ∧
    0 < get_split_point n ∧ get_split_point n < n ∧
    (∀ b, n = 2 ^ b → get_split_point n = n / 2) ∧
    get_split_point n =
      (if 2 ^ Nat.log2 n = n then 2 ^ (Nat.log2 n - 1) else 2 ^ Nat.log2 n) := by
  have hlog : 1 ≤ Nat.log2 n := log2_pos_of_two_le h
  have hform : get_split_point n =
      (if 2 ^ Nat.log2 n = n then 2 ^ (Nat.log2 n - 1) else 2 ^ Nat.log2 n) := by
    rw [get_split_point_of_le (by omega)]
    split
    · have hsplit : (2:Nat) ^ Nat.log2 n = 2 ^ (Nat.log2 n - 1) * 2 := by
        rw [← pow_succ]
        congr 1
        omega
      rw [hsplit, Nat.mul_div_cancel _ (by omega)]
    · rfl
  refine ⟨?_, get_split_point_pos h, get_split_point_lt h, ?_, hform⟩
  · rw [hform]
    split
    · exact ⟨Nat.log2 n - 1, rfl⟩
    · exact ⟨Nat.log2 n, rfl⟩
  · intro b hb
    have hb1 : 1 ≤ b := by
      by_contra hc
      have : b = 0 := by omega
      rw [this] at hb
      simp at hb
      omega
    have hlogb : Nat.log2 n = b := by rw [hb, Nat.log2_two_pow]
    rw [hform, if_pos (by rw [hlogb, ← hb]), hlogb, hb]
    have hsplit : (2:Nat) ^ b = 2 ^ (b - 1) * 2 := by
      rw [← pow_succ]
      congr 1
      omega
    rw [hsplit, Nat.mul_div_cancel _ (by omega)]

/-- Witness for C8 at `n = 6`. -/
theorem c8_get_split_point_witness :
    1 < 6 ∧
    ((∃ b, get_split_point 6 = 2 ^ b) ∧
    0 < get_split_point 6 ∧ get_split_point 6 < 6 ∧
    (∀ b, 6 = 2 ^ b → get_split_point 6 = 6 / 2) ∧
    get_split_point 6 =
      (if 2 ^ Nat.log2 6 = 6 then 2 ^ (Nat.log2 6 - 1) else 2 ^ Nat.log2 6)) :=
  ⟨by omega, c8_get_split_point 6 (by omega)⟩

/-- **C10**: recomputing a root from a leaf hash and aunts is total and
returns `none` exactly on malformed shapes: when `index ≥ total` or
`total = 0`; when `total = 1` with a non-empty aunt list; when a multi-leaf
subtree is reached with no aunts left — equivalently, a hash is returned iff
`index < total` and the aunt-list length equals the recursion depth
`aunts_depth index total`. -/
theorem c10_compute_hash_from_aunts_none (innerH : List Nat → List Nat → List Nat)
    (index total : Nat) (lh : List Nat) (aunts : List (List Nat)) :
    ((total ≤ index ∨ total = 0) →
      compute_hash_from_aunts innerH index total lh aunts = none) ∧
    (total = 1 → aunts ≠ [] →
      compute_hash_from_aunts innerH index total lh aunts = none) ∧
    (1 < total → aunts = [] →
      compute_hash_from_aunts innerH index total lh aunts = none) ∧
    ((compute_hash_from_aunts innerH index total lh aunts).isSome = true ↔
      (index < total ∧ aunts.length = aunts_depth index total)) := by
  refine ⟨?_, ?_, ?_, compute_hash_from_aunts_isSome innerH total index lh aunts⟩
  · intro h0
    rw [compute_hash_from_aunts, dif_pos h0]
  · intro h1 ha
    rw [compute_hash_from_aunts]
    by_cases h0 : total ≤ index ∨ total = 0
    · rw [dif_pos h0]
    · rw [dif_neg h0, dif_pos h1, if_neg (by simp [List.isEmpty_iff, ha])]
  · intro h1 ha
    rw [compute_hash_from_aunts]
    by_cases h0 : total ≤ index ∨ total = 0
    · rw [dif_pos h0]
    · rw [dif_neg h0, dif_neg (by omega : ¬ total = 1), dif_pos (by simp [ha])]

unseal Nat.log2 compute_hash_from_aunts verify_path in
/-- Witness for C10: each malformed shape at a concrete input is rejected and
a well-formed one is accepted. -/
theorem c10_compute_hash_from_aunts_none_witness :
    compute_hash_from_aunts innerH0 2 2 [3] [[4]] = none ∧
    compute_hash_from_aunts innerH0 0 1 [3] [[4]] = none ∧
    compute_hash_from_aunts innerH0 0 2 [3] [] = none ∧
    (compute_hash_from_aunts innerH0 0 2 [3] [[4]]).isSome = true :=
  ⟨(c10_compute_hash_from_aunts_none innerH0 2 2 [3] [[4]]).1 (by omega),
   (c10_compute_hash_from_aunts_none innerH0 0 1 [3] [[4]]).2.1 rfl (by simp),
   (c10_compute_hash_from_aunts_none innerH0 0 2 [3] []).2.2.1 (by omega) rfl,
   ((c10_compute_hash_from_aunts_none innerH0 0 2 [3] [[4]]).2.2.2).mpr
     ⟨by omega, by decide⟩⟩

unseal Nat.log2 compute_hash_from_aunts in
/-- Counterexample for C7: at a malformed proof shape (total `2`, empty aunt
list) `Proof::verify` hits the `.expect(..)` and panics instead of returning
an error value. -/
theorem c7_counterexample :
    (MerkleProof.mk 2 0 (leafH0 [3]) []).verify leafH0 innerH0 [9] [3] =
      VerifyResult.panicked := by
  decide

/-- **C7 (amended)**: for well-shaped proofs (those whose aunt list fits
`(index, total)`, i.e. `compute_hash_from_aunts` returns a hash) any mismatch
of leaf hash or root is reported as an error value; but when
`compute_hash_from_aunts` returns `none` — in particular when the aunt list
has the wrong length — `verify` panics rather than returning. -/
theorem c7_verify_characterization (leafH : List Nat → List Nat)
    (innerH : List Nat → List Nat → List Nat) (p : MerkleProof) (root leaf : List Nat) :
    (p.verify leafH innerH root leaf = VerifyResult.panicked ↔
      (p.leaf_hash = leafH leaf ∧
        compute_hash_from_aunts innerH p.index p.total p.leaf_hash p.aunts = none)) ∧
    (p.verify leafH innerH root leaf = VerifyResult.ok ↔
      (p.leaf_hash = leafH leaf ∧
        compute_hash_from_aunts innerH p.index p.total p.leaf_hash p.aunts = some root)) ∧
    (p.verify leafH innerH root leaf = VerifyResult.fail ↔
      (p.leaf_hash ≠ leafH leaf ∨
        (p.leaf_hash = leafH leaf ∧
          ∃ c, compute_hash_from_aunts innerH p.index p.total p.leaf_hash p.aunts = some c ∧
            c ≠ root))) := by
  simp only [MerkleProof.verify]
  by_cases hleaf : p.leaf_hash = leafH leaf
  · rw [if_neg (by simp [hleaf])]
    cases hc : compute_hash_from_aunts innerH p.index p.total p.leaf_hash p.aunts with
    | none =>
      refine ⟨by simp [hleaf], by simp, by simp [hleaf]⟩
    | some c =>
      dsimp only
      by_cases hroot : c = root
      · rw [if_neg (by simp [hroot])]
        refine ⟨by simp, by simp [hleaf, hroot], ?_⟩
        simp only [hleaf, ne_eq, not_true_eq_false, false_or, true_and]
        constructor
        · intro hcon
          exact absurd hcon (by simp)
        · intro ⟨c2, hc2, hne⟩
          exact absurd (Option.some.inj hc2) (by rw [hroot]; exact fun h => hne h.symm)
      · rw [if_pos (by simp [hroot])]
        refine ⟨by simp, by simp [hroot], ?_⟩
        simp only [hleaf, ne_eq, not_true_eq_false, false_or, true_and]
        constructor
        · intro _
          exact ⟨c, rfl, hroot⟩
        · intro _
          trivial
  · rw [if_pos (by simp [hleaf])]
    refine ⟨by simp [hleaf], by simp [hleaf], by simp [hleaf]⟩

unseal Nat.log2 compute_hash_from_aunts in
/-- Witness for the C7 characterization at a concrete well-shaped and a
concrete malformed proof. -/
theorem c7_verify_characterization_witness :
    (MerkleProof.mk 1 0 (leafH0 [3]) []).verify leafH0 innerH0 (leafH0 [3]) [3] =
      VerifyResult.ok ∧
    (MerkleProof.mk 2 0 (leafH0 [3]) []).verify leafH0 innerH0 (leafH0 [3]) [3] =
      VerifyResult.panicked :=
  ⟨((c7_verify_characterization leafH0 innerH0 (MerkleProof.mk 1 0 (leafH0 [3]) [])
      (leafH0 [3]) [3]).2.1).mpr ⟨rfl, by decide⟩,
   ((c7_verify_characterization leafH0 innerH0 (MerkleProof.mk 2 0 (leafH0 [3]) [])
      (leafH0 [3]) [3]).1).mpr ⟨rfl, by decide⟩⟩

unseal Nat.log2 path_indices_loop verify_path trails_from_byte_slices in
/-- Counterexample for C6: at leaf index `2` of a 3-leaf tree,
`get_path_indices` yields two bits, but verification consumes a single bit
and `build` produces a single aunt — the produced sequence is not the one
verification consumes and its length is not the proof depth. -/
theorem c6_counterexample :
    get_path_indices 2 3 = [false, true] ∧
    verify_path 2 3 = [true] ∧
    ((proofs_from_byte_slices leafH0 innerH0 emptyH0 [[0], [1], [2]]).2.getD 2
      (MerkleProof.mk 0 0 [] [])).aunts.length = 1 := by
  decide

unseal Nat.log2 path_indices_loop verify_path trails_from_byte_slices in
/-- **C6 (amended)**: for the 14-leaf header tree at the tracked indices
`4, 6, 7, 8`, `get_path_indices` yields exactly the hard-coded 4-bit paths
`{false,false,true,false}`, `{false,true,true,false}`, `{true,true,true,false}`,
`{false,false,false,true}`; each equals the bit sequence consumed by proof
verification, and its length `4` equals the number of aunts `build` produces
for that leaf.  (The per-index claim does not hold for every index and total:
see the counterexample at index `2`, total `3`.) -/
theorem c6_get_path_indices_header_tree :
    get_path_indices 4 14 = [false, false, true, false] ∧
    get_path_indices 6 14 = [false, true, true, false] ∧
    get_path_indices 7 14 = [true, true, true, false] ∧
    get_path_indices 8 14 = [false, false, false, true] ∧
    get_path_indices 4 14 = verify_path 4 14 ∧
    get_path_indices 6 14 = verify_path 6 14 ∧
    get_path_indices 7 14 = verify_path 7 14 ∧
    get_path_indices 8 14 = verify_path 8 14 ∧
    ((proofs_from_byte_slices leafH0 innerH0 emptyH0
        (List.range 14 |>.map fun i => [i])).2.getD 4
      (MerkleProof.mk 0 0 [] [])).aunts.length = 4 ∧
    ((proofs_from_byte_slices leafH0 innerH0 emptyH0
        (List.range 14 |>.map fun i => [i])).2.getD 8
      (MerkleProof.mk 0 0 [] [])).aunts.length = 4 := by
  decide

/-- Counterexample for C4: in the pair `([5] disabled, [6] enabled)` exactly
one node is enabled, yet the parent hash is the left (disabled) child's hash
`[5]`, not the enabled child's hash `[6]`. -/
theorem c4_counterexample :
    (hash_merkle_layer innerH0 [[5], [6]] [false, true]).1.getD 0 [] = [5] ∧
    (hash_merkle_layer innerH0 [[5], [6]] [false, true]).2.getD 0 false = true ∧
    [5] ≠ ([6] : List Nat) := by
  decide

/-- **C4 (amended)**: in each reduction layer, for the pair at position `j`:
if both nodes are enabled the parent is `inner_hash(left, right)` and
enabled; if only the left node is enabled the parent is the left (enabled)
child's hash and enabled; if only the right node is enabled the parent is
still the **left (disabled)** child's hash — not the enabled child's — and
enabled; if neither is enabled the parent is disabled. -/
theorem c4_hash_merkle_layer_pairs (innerH : List Nat → List Nat → List Nat)
    (hs : List (List Nat)) (es : List Bool) (j : Nat)
    (hj : 2 * j + 1 < hs.length) (hj2 : 2 * j + 1 < es.length) :
    (es.getD (2 * j) false = true → es.getD (2 * j + 1) false = true →
      (hash_merkle_layer innerH hs es).1.getD j [] =
        innerH (hs.getD (2 * j) []) (hs.getD (2 * j + 1) []) ∧
      (hash_merkle_layer innerH hs es).2.getD j false = true) ∧
    (es.getD (2 * j) false = true → es.getD (2 * j + 1) false = false →
      (hash_merkle_layer innerH hs es).1.getD j [] = hs.getD (2 * j) [] ∧
      (hash_merkle_layer innerH hs es).2.getD j false = true) ∧
    (es.getD (2 * j) false = false → es.getD (2 * j + 1) false = true →
      (hash_merkle_layer innerH hs es).1.getD j [] = hs.getD (2 * j) [] ∧
      (hash_merkle_layer innerH hs es).2.getD j false = true) ∧
    (es.getD (2 * j) false = false → es.getD (2 * j + 1) false = false →
      (hash_merkle_layer innerH hs es).2.getD j false = false) := by
  induction j generalizing hs es with
  | zero =>
    match hs, es with
    | [], _ => simp at hj
    | [_], _ => simp at hj
    | _ :: _ :: _, [] => simp at hj2
    | _ :: _ :: _, [_] => simp at hj2
    | h1 :: h2 :: hs', e1 :: e2 :: es' =>
      cases e1 <;> cases e2 <;>
        simp [hash_merkle_layer]
  | succ j IH =>
    match hs, es with
    | [], _ => simp at hj
    | [_], _ => simp at hj
    | _ :: _ :: _, [] => simp at hj2
    | _ :: _ :: _, [_] => simp at hj2
    | h1 :: h2 :: hs', e1 :: e2 :: es' =>
      have harith : 2 * (j + 1) = 2 * j + 1 + 1 := by ring
      have harith2 : 2 * (j + 1) + 1 = 2 * j + 1 + 1 + 1 := by ring
      have hIH := IH hs' es' (by simp at hj; omega) (by simp at hj2; omega)
      simpa [hash_merkle_layer, harith, harith2, List.getD_cons_succ] using hIH

/-- Witness for the C4 pair characterization at a concrete layer. -/
theorem c4_hash_merkle_layer_pairs_witness :
    (2 * 0 + 1 < ([[5], [6]] : List (List Nat)).length ∧
      2 * 0 + 1 < [false, true].length) ∧
    (([false, true].getD (2 * 0) false = false →
        [false, true].getD (2 * 0 + 1) false = true →
      (hash_merkle_layer innerH0 [[5], [6]] [false, true]).1.getD 0 [] =
        ([[5], [6]] : List (List Nat)).getD (2 * 0) [] ∧
      (hash_merkle_layer innerH0 [[5], [6]] [false, true]).2.getD 0 false = true)) :=
  ⟨⟨by decide, by decide⟩,
    (c4_hash_merkle_layer_pairs innerH0 [[5], [6]] [false, true] 0 (by decide)
      (by decide)).2.2.1⟩

/-- **C1**: for every non-empty leaf sequence and every leaf, `build`
(`proofs_from_byte_slices`) yields a root and a proof that verify against the
leaf's own bytes; and — under injectivity of the leaf hasher and pairwise
injectivity of the inner hasher, the collision-freeness SHA-256 is trusted
for — verification returns an error for any altered leaf bytes (in
particular any single flipped bit), any altered root, and any alteration of
any single aunt hash. -/
theorem c1_build_verify (leafH : List Nat → List Nat)
    (innerH : List Nat → List Nat → List Nat) (emptyH : List Nat)
    (hleaf : Function.Injective leafH)
    (hinner : ∀ a b c d, innerH a b = innerH c d → a = c ∧ b = d)
    (items : List (List Nat)) (i : Nat) (hne : items ≠ []) (hi : i < items.length) :
    (((proofs_from_byte_slices leafH innerH emptyH items).2.getD i
        (MerkleProof.mk 0 0 [] [])).verify leafH innerH
        (proofs_from_byte_slices leafH innerH emptyH items).1 (items.getD i []) =
      VerifyResult.ok) ∧
    (∀ leaf2, leaf2 ≠ items.getD i [] →
      ((proofs_from_byte_slices leafH innerH emptyH items).2.getD i
        (MerkleProof.mk 0 0 [] [])).verify leafH innerH
        (proofs_from_byte_slices leafH innerH emptyH items).1 leaf2 =
      VerifyResult.fail) ∧
    (∀ root2, root2 ≠ (proofs_from_byte_slices leafH innerH emptyH items).1 →
      ((proofs_from_byte_slices leafH innerH emptyH items).2.getD i
        (MerkleProof.mk 0 0 [] [])).verify leafH innerH root2 (items.getD i []) =
      VerifyResult.fail) ∧
    (∀ j a2,
      j < ((proofs_from_byte_slices leafH innerH emptyH items).2.getD i
        (MerkleProof.mk 0 0 [] [])).aunts.length →
      a2 ≠ ((proofs_from_byte_slices leafH innerH emptyH items).2.getD i
        (MerkleProof.mk 0 0 [] [])).aunts.getD j [] →
      (MerkleProof.mk
        ((proofs_from_byte_slices leafH innerH emptyH items).2.getD i
          (MerkleProof.mk 0 0 [] [])).total
        ((proofs_from_byte_slices leafH innerH emptyH items).2.getD i
          (MerkleProof.mk 0 0 [] [])).index
        ((proofs_from_byte_slices leafH innerH emptyH items).2.getD i
          (MerkleProof.mk 0 0 [] [])).leaf_hash
        (((proofs_from_byte_slices leafH innerH emptyH items).2.getD i
          (MerkleProof.mk 0 0 [] [])).aunts.set j a2)).verify leafH innerH
        (proofs_from_byte_slices leafH innerH emptyH items).1 (items.getD i []) =
      VerifyResult.fail) := by
  have hspec := trails_from_byte_slices_spec leafH innerH emptyH items.length items rfl
  have h1 : i < (trails_from_byte_slices leafH innerH emptyH items).1.length := by
    rw [hspec.1]
    exact hi
  have he : (trails_from_byte_slices leafH innerH emptyH items).1[i]? =
      some (trails_from_byte_slices leafH innerH emptyH items).1[i] :=
    List.getElem?_eq_getElem h1
  obtain ⟨he1, he2⟩ := hspec.2 i _ he
  have hp : (proofs_from_byte_slices leafH innerH emptyH items).2.getD i
      (MerkleProof.mk 0 0 [] []) =
      MerkleProof.mk items.length i
        (trails_from_byte_slices leafH innerH emptyH items).1[i].1
        (trails_from_byte_slices leafH innerH emptyH items).1[i].2 := by
    simp only [proofs_from_byte_slices]
    rw [List.getD_eq_getElem?_getD, List.getElem?_mapIdx, he]
    rfl
  have hroot : (proofs_from_byte_slices leafH innerH emptyH items).1 =
      (trails_from_byte_slices leafH innerH emptyH items).2 := rfl
  rw [hp, hroot]
  refine ⟨?_, ?_, ?_, ?_⟩
  · simp only [MerkleProof.verify]
    rw [if_neg (by simp [he1])]
    rw [he2]
    simp
  · intro leaf2 hl2
    simp only [MerkleProof.verify]
    rw [if_pos]
    simp only [ne_eq, he1]
    intro hcon
    exact hl2 (hleaf hcon).symm
  · intro root2 hr2
    simp only [MerkleProof.verify]
    rw [if_neg (by simp [he1])]
    rw [he2]
    simp only [ne_eq]
    rw [if_pos (fun hcon => hr2 hcon.symm)]
  · intro j a2 hj ha2
    dsimp only at hj ha2
    simp only [MerkleProof.verify]
    rw [if_neg (by simp [he1])]
    have hshape := (compute_hash_from_aunts_isSome innerH items.length i
      (trails_from_byte_slices leafH innerH emptyH items).1[i].1
      (trails_from_byte_slices leafH innerH emptyH items).1[i].2).mp (by rw [he2]; rfl)
    have hshape2 : ((trails_from_byte_slices leafH innerH emptyH
        items).1[i].2.set j a2).length =
        aunts_depth i items.length := by
      rw [List.length_set]
      exact hshape.2
    have hsome := (compute_hash_from_aunts_isSome innerH items.length i
      (trails_from_byte_slices leafH innerH emptyH items).1[i].1
      ((trails_from_byte_slices leafH innerH emptyH items).1[i].2.set j a2)).mpr
      ⟨hshape.1, hshape2⟩
    have hsetne : (trails_from_byte_slices leafH innerH emptyH items).1[i].2.set j a2 ≠
        (trails_from_byte_slices leafH innerH emptyH items).1[i].2 := by
      intro hcon
      have := congrArg (fun l => l[j]?) hcon
      simp only [List.getElem?_set_self hj, List.getElem?_eq_getElem hj,
        Option.some.injEq] at this
      apply ha2
      rw [List.getD_eq_getElem?_getD, List.getElem?_eq_getElem hj]
      exact this
    cases hc2 : compute_hash_from_aunts innerH i items.length
        (trails_from_byte_slices leafH innerH emptyH items).1[i].1
        ((trails_from_byte_slices leafH innerH emptyH items).1[i].2.set j a2) with
    | none =>
      rw [hc2] at hsome
      simp at hsome
    | some c =>
      dsimp only [ne_eq]
      rw [if_pos]
      intro hcon
      rw [hcon] at hc2
      have := compute_hash_from_aunts_inj innerH hinner items.length i _ _ _ _ _ he2 hc2
      exact hsetne this.2.symm

/-- Witness for C1: a concrete 3-leaf tree with the concrete injective
hasher pair; hypotheses discharged at this input. -/
theorem c1_build_verify_witness :
    (Function.Injective leafH0 ∧
      (∀ a b c d, innerH0 a b = innerH0 c d → a = c ∧ b = d) ∧
      ([[5], [6], [7]] : List (List Nat)) ≠ [] ∧
      1 < ([[5], [6], [7]] : List (List Nat)).length) ∧
    ((((proofs_from_byte_slices leafH0 innerH0 emptyH0 [[5], [6], [7]]).2.getD 1
        (MerkleProof.mk 0 0 [] [])).verify leafH0 innerH0
        (proofs_from_byte_slices leafH0 innerH0 emptyH0 [[5], [6], [7]]).1
        ([[5], [6], [7]].getD 1 []) =
      VerifyResult.ok) ∧
    (∀ leaf2, leaf2 ≠ [[5], [6], [7]].getD 1 [] →
      ((proofs_from_byte_slices leafH0 innerH0 emptyH0 [[5], [6], [7]]).2.getD 1
        (MerkleProof.mk 0 0 [] [])).verify leafH0 innerH0
        (proofs_from_byte_slices leafH0 innerH0 emptyH0 [[5], [6], [7]]).1 leaf2 =
      VerifyResult.fail) ∧
    (∀ root2, root2 ≠ (proofs_from_byte_slices leafH0 innerH0 emptyH0 [[5], [6], [7]]).1 →
      ((proofs_from_byte_slices leafH0 innerH0 emptyH0 [[5], [6], [7]]).2.getD 1
        (MerkleProof.mk 0 0 [] [])).verify leafH0 innerH0 root2
        ([[5], [6], [7]].getD 1 []) =
      VerifyResult.fail) ∧
    (∀ j a2,
      j < ((proofs_from_byte_slices leafH0 innerH0 emptyH0 [[5], [6], [7]]).2.getD 1
        (MerkleProof.mk 0 0 [] [])).aunts.length →
      a2 ≠ ((proofs_from_byte_slices leafH0 innerH0 emptyH0 [[5], [6], [7]]).2.getD 1
        (MerkleProof.mk 0 0 [] [])).aunts.getD j [] →
      (MerkleProof.mk
        ((proofs_from_byte_slices leafH0 innerH0 emptyH0 [[5], [6], [7]]).2.getD 1
          (MerkleProof.mk 0 0 [] [])).total
        ((proofs_from_byte_slices leafH0 innerH0 emptyH0 [[5], [6], [7]]).2.getD 1
          (MerkleProof.mk 0 0 [] [])).index
        ((proofs_from_byte_slices leafH0 innerH0 emptyH0 [[5], [6], [7]]).2.getD 1
          (MerkleProof.mk 0 0 [] [])).leaf_hash
        (((proofs_from_byte_slices leafH0 innerH0 emptyH0 [[5], [6], [7]]).2.getD 1
          (MerkleProof.mk 0 0 [] [])).aunts.set j a2)).verify leafH0 innerH0
        (proofs_from_byte_slices leafH0 innerH0 emptyH0 [[5], [6], [7]]).1
        ([[5], [6], [7]].getD 1 []) =
      VerifyResult.fail)) :=
  ⟨⟨leafH0_injective, innerH0_pair_injective, by decide, by decide⟩,
    c1_build_verify leafH0 innerH0 emptyH0 leafH0_injective innerH0_pair_injective
      [[5], [6], [7]] 1 (by decide) (by decide)⟩

theorem mul_i64_by_u32_spec (a : I64) (b : Nat) :
    (a.val * b < U32_MOD * U32_MOD →
      ∃ c, mul_i64_by_u32 a b = some c ∧ c.val = a.val * b ∧
        c.lo < U32_MOD ∧ c.hi < U32_MOD) ∧
    (U32_MOD * U32_MOD ≤ a.val * b → mul_i64_by_u32 a b = none) := by
  have hM : U32_MOD = 4294967296 := rfl
  have hval : a.val * b = a.lo * b + U32_MOD * (a.hi * b) := by
    simp only [I64.val]
    ring
  constructor
  · intro hlt
    rw [hval, hM] at hlt
    simp only [mul_i64_by_u32, mul_u32, add_u32]
    rw [if_neg (by simp only [ne_eq, not_not, hM]; omega),
      if_neg (by simp only [ne_eq, not_not, hM]; omega)]
    refine ⟨_, rfl, ?_, ?_, ?_⟩
    · simp only [I64.val, hM]
      have h2 : (a.lo + 4294967296 * a.hi) * b = a.lo * b + 4294967296 * (a.hi * b) := by
        ring
      rw [h2]
      omega
    · simp only [hM]
      omega
    · simp only [hM]
      omega
  · intro hge
    rw [hval, hM] at hge
    simp only [mul_i64_by_u32, mul_u32, add_u32]
    by_cases h1 : a.hi * b / U32_MOD = 0
    · rw [if_neg (by simp [h1]), if_pos (by simp only [ne_eq, hM] at *; omega)]
    · rw [if_pos (by simp [h1])]

theorem sub_u32_eq {a b : Nat} (ha : a < U32_MOD) (hb : b < U32_MOD) :
    sub_u32 a b 0 = (if a < b then a + U32_MOD - b else a - b, if a < b then 1 else 0) := by
  simp only [sub_u32, Nat.add_zero]
  congr 1
  by_cases h : a < b
  · rw [if_pos h]
    exact Nat.mod_eq_of_lt (by unfold U32_MOD at *; omega)
  · rw [if_neg h]
    have h2 : a + U32_MOD - b = (a - b) + U32_MOD := by omega
    rw [h2, Nat.add_mod_right]
    exact Nat.mod_eq_of_lt (by unfold U32_MOD at *; omega)

theorem is_i64_gte_spec (a b : I64) (ha1 : a.lo < U32_MOD) (ha2 : a.hi < U32_MOD)
    (hb1 : b.lo < U32_MOD) (hb2 : b.hi < U32_MOD) :
    is_i64_gte a b = true ↔ b.val ≤ a.val := by
  have hM : U32_MOD = 4294967296 := rfl
  simp only [is_i64_gte, sub_u32_eq ha2 hb2, sub_u32_eq ha1 hb1, I64.val, Bool.or_eq_true,
    Bool.and_eq_true, Bool.not_eq_true', decide_eq_false_iff_not,
    decide_eq_true_eq, ne_eq]
  rw [hM] at ha1 ha2 hb1 hb2 ⊢
  split_ifs with h1 h2 <;>
    simp only [and_false, and_true, eq_self_iff_true, or_self, false_or, or_false,
      false_iff, true_iff] <;>
    omega

theorem accumulate_step_spec (acc vp : I64) (e : Nat)
    (hacc1 : acc.lo < U32_MOD) (hacc2 : acc.hi < U32_MOD)
    (hvp1 : vp.lo < U32_MOD) (hvp2 : vp.hi < U32_MOD) (he : e ≤ 1) :
    (acc.val + vp.val * e < U32_MOD * U32_MOD →
      ∃ c, accumulate_step acc vp e = some c ∧ c.val = acc.val + vp.val * e ∧
        c.lo < U32_MOD ∧ c.hi < U32_MOD) ∧
    (U32_MOD * U32_MOD ≤ acc.val + vp.val * e → accumulate_step acc vp e = none) := by
  have hM : U32_MOD = 4294967296 := rfl
  rw [hM] at hacc1 hacc2 hvp1 hvp2
  rcases (by omega : e = 0 ∨ e = 1) with rfl | rfl
  · constructor
    · intro hlt
      simp only [I64.val, hM, Nat.mul_zero, Nat.add_zero] at hlt
      simp only [accumulate_step, mul_add_u32, add_u32]
      rw [if_neg (by simp only [ne_eq, not_not, hM]; omega),
        if_neg (by simp only [ne_eq, not_not, hM]; omega)]
      refine ⟨_, rfl, ?_, ?_, ?_⟩
      · simp only [I64.val, hM]
        omega
      · simp only [hM]
        omega
      · simp only [hM]
        omega
    · intro hge
      simp only [I64.val, hM, Nat.mul_zero, Nat.add_zero] at hge
      omega
  · constructor
    · intro hlt
      simp only [I64.val, hM, Nat.mul_one] at hlt
      simp only [accumulate_step, mul_add_u32, add_u32]
      rw [if_neg (by simp only [ne_eq, not_not, hM]; omega),
        if_neg (by simp only [ne_eq, not_not, hM]; omega)]
      refine ⟨_, rfl, ?_, ?_, ?_⟩
      · simp only [I64.val, hM]
        omega
      · simp only [hM]
        omega
      · simp only [hM]
        omega
    · intro hge
      simp only [I64.val, hM, Nat.mul_one] at hge
      simp only [accumulate_step, mul_add_u32, add_u32, Nat.mul_one]
      by_cases h1 : ((vp.lo + acc.lo) / U32_MOD + vp.hi) / U32_MOD = 0
      · rw [if_neg (by simp [h1]), if_pos (by simp only [ne_eq, hM] at *; omega)]
      · rw [if_pos (by simp [h1])]

theorem accumulate_voting_power_spec :
    ∀ (l : List (I64 × Nat)) (acc : I64),
      (∀ p ∈ l, p.1.lo < U32_MOD ∧ p.1.hi < U32_MOD ∧ p.2 ≤ 1) →
      acc.lo < U32_MOD → acc.hi < U32_MOD →
      (acc.val + (l.map fun p => p.1.val * p.2).sum < U32_MOD * U32_MOD →
        ∃ c, accumulate_voting_power l acc = some c ∧
          c.val = acc.val + (l.map fun p => p.1.val * p.2).sum ∧
          c.lo < U32_MOD ∧ c.hi < U32_MOD) ∧
      (U32_MOD * U32_MOD ≤ acc.val + (l.map fun p => p.1.val * p.2).sum →
        accumulate_voting_power l acc = none) := by
  intro l
  induction l with
  | nil =>
    intro acc hwf hacc1 hacc2
    constructor
    · intro hlt
      exact ⟨acc, rfl, by simp, hacc1, hacc2⟩
    · intro hge
      simp only [List.map_nil, List.sum_nil, Nat.add_zero] at hge
      have hv : acc.val < U32_MOD * U32_MOD := by
        have hM : U32_MOD = 4294967296 := rfl
        simp only [I64.val, hM] at *
        omega
      omega
  | cons p rest IH =>
    intro acc hwf hacc1 hacc2
    obtain ⟨hp1, hp2, hp3⟩ := hwf p (by simp)
    have hwfr : ∀ q ∈ rest, q.1.lo < U32_MOD ∧ q.1.hi < U32_MOD ∧ q.2 ≤ 1 :=
      fun q hq => hwf q (by simp [hq])
    have hstep := accumulate_step_spec acc p.1 p.2 hacc1 hacc2 hp1 hp2 hp3
    constructor
    · intro hlt
      have hslt : acc.val + p.1.val * p.2 < U32_MOD * U32_MOD := by
        simp only [List.map_cons, List.sum_cons] at hlt
        omega
      obtain ⟨c, hc, hcval, hc1, hc2⟩ := hstep.1 hslt
      simp only [accumulate_voting_power]
      rw [hc]
      have hrest := (IH c hwfr hc1 hc2).1 (by
        simp only [List.map_cons, List.sum_cons] at hlt
        rw [hcval]
        omega)
      obtain ⟨c2, hc2e, hc2val, hc2a, hc2b⟩ := hrest
      refine ⟨c2, hc2e, ?_, hc2a, hc2b⟩
      rw [hc2val, hcval]
      simp only [List.map_cons, List.sum_cons]
      omega
    · intro hge
      simp only [List.map_cons, List.sum_cons] at hge
      by_cases hov : U32_MOD * U32_MOD ≤ acc.val + p.1.val * p.2
      · simp only [accumulate_voting_power]
        rw [hstep.2 hov]
      · obtain ⟨c, hc, hcval, hc1, hc2⟩ := hstep.1 (by omega)
        simp only [accumulate_voting_power]
        rw [hc]
        exact (IH c hwfr hc1 hc2).2 (by rw [hcval]; omega)

/-- **C3**: accumulating voting power over the enabled validators is
overflow-checked: whenever the sum of `voting_power * enabled` over the
validator list reaches `2^64`, the accumulation loop of
`check_voting_power` fails (an `assert_zero_u32` constraint is violated,
embedded as `none`) and no wrapped value is ever handed to the threshold
comparison. -/
theorem c3_check_voting_power_overflow (vps : List I64) (enabled : List Nat)
    (total : I64) (num den : Nat)
    (hwf : ∀ v ∈ vps, v.lo < U32_MOD ∧ v.hi < U32_MOD)
    (hen : ∀ e ∈ enabled, e ≤ 1)
    (hlen : vps.length = enabled.length)
    (hovf : U32_MOD * U32_MOD ≤
      ((vps.zip enabled).map fun p => p.1.val * p.2).sum) :
    accumulate_voting_power (vps.zip enabled) (I64.mk 0 0) = none ∧
    check_voting_power vps enabled total num den = none := by
  have hwfz : ∀ p ∈ vps.zip enabled, p.1.lo < U32_MOD ∧ p.1.hi < U32_MOD ∧ p.2 ≤ 1 := by
    intro p hp
    have := List.of_mem_zip hp
    exact ⟨(hwf p.1 this.1).1, (hwf p.1 this.1).2, hen p.2 this.2⟩
  have hlo : (I64.mk 0 0).lo = 0 := rfl
  have hhi : (I64.mk 0 0).hi = 0 := rfl
  have hval : (I64.mk 0 0).val = 0 := rfl
  have hspec := accumulate_voting_power_spec (vps.zip enabled) (I64.mk 0 0) hwfz
    (by rw [hlo]; unfold U32_MOD; omega) (by rw [hhi]; unfold U32_MOD; omega)
  have hnone := hspec.2 (by rw [hval]; omega)
  refine ⟨hnone, ?_⟩
  simp only [check_voting_power]
  rw [hnone]

/-- Witness for C3: two enabled validators whose powers sum to exactly
`2^64`; the accumulation fails and the check returns no value. -/
theorem c3_check_voting_power_overflow_witness :
    ((∀ v ∈ [I64.mk 4294967295 4294967295, I64.mk 1 0],
        v.lo < U32_MOD ∧ v.hi < U32_MOD) ∧
      (∀ e ∈ [1, 1], e ≤ 1) ∧
      ([I64.mk 4294967295 4294967295, I64.mk 1 0].length = [1, 1].length) ∧
      U32_MOD * U32_MOD ≤
        ((([I64.mk 4294967295 4294967295, I64.mk 1 0]).zip [1, 1]).map
          fun p => p.1.val * p.2).sum) ∧
    (accumulate_voting_power
        (([I64.mk 4294967295 4294967295, I64.mk 1 0]).zip [1, 1]) (I64.mk 0 0) = none ∧
      check_voting_power [I64.mk 4294967295 4294967295, I64.mk 1 0] [1, 1]
        (I64.mk 7 0) 2 3 = none) :=
  ⟨⟨by decide, by decide, by decide, by decide⟩,
    c3_check_voting_power_overflow [I64.mk 4294967295 4294967295, I64.mk 1 0] [1, 1]
      (I64.mk 7 0) 2 3 (by decide) (by decide) (by decide) (by decide)⟩

theorem digit_exists : ∀ (m w : Nat), w ≠ 0 → w < 128 ^ m →
    ∃ j, j < m ∧ w / 128 ^ j % 128 ≠ 0 := by
  intro m
  induction m with
  | zero =>
    intro w hw hlt
    simp at hlt
    omega
  | succ m IH =>
    intro w hw hlt
    by_cases hsmall : w < 128
    · refine ⟨0, by omega, ?_⟩
      simpa [Nat.mod_eq_of_lt hsmall] using hw
    · have hne : w / 128 ≠ 0 := by
        intro hcon
        rw [Nat.div_eq_zero_iff (by omega)] at hcon
        omega
      have hltm : w / 128 < 128 ^ m := by
        rw [Nat.div_lt_iff_lt_mul (by omega)]
        calc w < 128 ^ (m + 1) := hlt
          _ = 128 ^ m * 128 := by rw [pow_succ]
      obtain ⟨j, hj, hjne⟩ := IH (w / 128) hne hltm
      refine ⟨j + 1, by omega, ?_⟩
      have hdd : w / 128 / 128 ^ j = w / 128 ^ (j + 1) := by
        rw [Nat.div_div_eq_div_mul, ← pow_succ']
      rw [← hdd]
      exact hjne

theorem lt_pow_last_nonzero_septet {v : Nat} (hv : v < 128 ^ 9) :
    v < 128 ^ (last_nonzero_septet v + 1) := by
  by_contra hcon
  push_neg at hcon
  have hL : last_nonzero_septet v ≤ 8 := Nat.findGreatest_le 8
  by_cases h8 : last_nonzero_septet v = 8
  · rw [h8] at hcon
    omega
  · have hL7 : last_nonzero_septet v < 8 := by omega
    have hwne : v / 128 ^ (last_nonzero_septet v + 1) ≠ 0 := by
      intro hz
      rw [Nat.div_eq_zero_iff (by positivity)] at hz
      omega
    have hwlt : v / 128 ^ (last_nonzero_septet v + 1) < 128 ^ (8 - last_nonzero_septet v) := by
      rw [Nat.div_lt_iff_lt_mul (by positivity)]
      calc v < 128 ^ 9 := hv
        _ = 128 ^ (8 - last_nonzero_septet v) * 128 ^ (last_nonzero_septet v + 1) := by
          rw [← pow_add]
          congr 1
          omega
    obtain ⟨j, hj, hjne⟩ := digit_exists _ _ hwne hwlt
    have heq : v / 128 ^ (last_nonzero_septet v + 1) / 128 ^ j =
        v / 128 ^ (last_nonzero_septet v + 1 + j) := by
      rw [Nat.div_div_eq_div_mul, ← pow_add]
    rw [heq] at hjne
    have hng := Nat.findGreatest_is_greatest (P := fun i => septet v i ≠ 0) (n := 8)
      (k := last_nonzero_septet v + 1 + j)
      (by unfold last_nonzero_septet; omega) (by omega)
    exact hng (by simpa [septet] using hjne)

theorem decode_varint_marshal_general :
    ∀ (L : Nat) (n v : Nat), L < n → v < 128 ^ (L + 1) →
      decode_varint ((List.range n).map fun i =>
        septet v i + if i < L then 128 else 0) = some v := by
  intro L
  induction L with
  | zero =>
    intro n v hn hv
    match n with
    | m + 1 =>
      rw [List.range_succ_eq_map, List.map_cons]
      have hvv : v < 128 := by simpa using hv
      have hs0 : septet v 0 + (if (0:Nat) < 0 then 128 else 0) = v := by
        simp [septet, Nat.mod_eq_of_lt hvv]
      rw [hs0]
      simp only [decode_varint]
      rw [if_pos hvv]
  | succ L IH =>
    intro n v hn hv
    match n with
    | m + 1 =>
      rw [List.range_succ_eq_map, List.map_cons, List.map_map]
      have hs0 : septet v 0 + (if (0:Nat) < L + 1 then 128 else 0) = v % 128 + 128 := by
        simp [septet]
      rw [hs0]
      simp only [decode_varint]
      rw [if_neg (by omega)]
      have hrest : (List.range m).map ((fun i => septet v i +
          if i < L + 1 then 128 else 0) ∘ Nat.succ) =
          (List.range m).map fun i => septet (v / 128) i + if i < L then 128 else 0 := by
        apply List.map_congr_left
        intro i _
        simp only [Function.comp_apply]
        congr 1
        · simp only [septet]
          rw [Nat.div_div_eq_div_mul, ← pow_succ']
        · simp only [Nat.succ_lt_succ_iff]
      rw [hrest, IH m (v / 128) (by omega) (by
        rw [Nat.div_lt_iff_lt_mul (by omega)]
        calc v < 128 ^ (L + 1 + 1) := hv
          _ = 128 ^ (L + 1) * 128 := by rw [pow_succ])]
      simp only [Option.map_some']
      congr 1
      have h1 : (v % 128 + 128) % 128 = v % 128 := by omega
      rw [h1]
      exact Nat.mod_add_div v 128

/-- **C9**: protobuf varint encoding of voting power round-trips with
decoding for every `v < 2^63`; the bit-63 assertion of the circuit passes;
`v = 0` encodes as the single zero byte and `v = 2^63 - 1` as the nine bytes
`[255, 255, 255, 255, 255, 255, 255, 255, 127]`.  Decoding also succeeds on
the full zero-padded 9-byte buffer the circuit emits, because decoding stops
at the first byte with a clear continuation bit. -/
theorem c9_varint_round_trip (v : Nat) (hv : v < 2 ^ 63) :
    marshal_int64_varint v = some (marshal_bytes v) ∧
    decode_varint (encode_varint v) = some v ∧
    decode_varint (marshal_bytes v) = some v ∧
    encode_varint 0 = [0] ∧
    encode_varint (2 ^ 63 - 1) =
      [255, 255, 255, 255, 255, 255, 255, 255, 127] := by
  have h639 : (2:Nat) ^ 63 = 128 ^ 9 := by norm_num
  have hv9 : v < 128 ^ 9 := by rw [← h639]; exact hv
  have hlast := lt_pow_last_nonzero_septet hv9
  have hL : last_nonzero_septet v ≤ 8 := Nat.findGreatest_le 8
  refine ⟨?_, ?_, ?_, by decide, by decide⟩
  · rw [marshal_int64_varint, if_neg (by simp [Nat.testBit_lt_two_pow hv])]
  · rw [encode_varint, marshal_bytes, ← List.map_take, List.take_range,
      min_eq_left (by omega)]
    exact decode_varint_marshal_general (last_nonzero_septet v) _ v (by omega) hlast
  · rw [marshal_bytes]
    exact decode_varint_marshal_general (last_nonzero_septet v) 9 v (by omega) hlast

/-- Witness for C9 at `v = 300`. -/
theorem c9_varint_round_trip_witness :
    300 < 2 ^ 63 ∧
    (marshal_int64_varint 300 = some (marshal_bytes 300) ∧
    decode_varint (encode_varint 300) = some 300 ∧
    decode_varint (marshal_bytes 300) = some 300 ∧
    encode_varint 0 = [0] ∧
    encode_varint (2 ^ 63 - 1) =
      [255, 255, 255, 255, 255, 255, 255, 255, 127]) :=
  ⟨by decide, c9_varint_round_trip 300 (by decide)⟩

theorem byte_eq_of_msb_bits_eq {a b : Nat} (ha : a < 256) (hb : b < 256)
    (h : ∀ j, j < 8 → Nat.testBit a (7 - j) = Nat.testBit b (7 - j)) : a = b := by
  apply Nat.eq_of_testBit_eq
  intro i
  by_cases hi : i < 8
  · have := h (7 - i) (by omega)
    have h7 : 7 - (7 - i) = i := by omega
    rwa [h7] at this
  · have hpa : a < 2 ^ i := by
      calc a < 256 := ha
        _ = 2 ^ 8 := by norm_num
        _ ≤ 2 ^ i := Nat.pow_le_pow_right (by omega) (by omega)
    have hpb : b < 2 ^ i := by
      calc b < 256 := hb
        _ = 2 ^ 8 := by norm_num
        _ ≤ 2 ^ i := Nat.pow_le_pow_right (by omega) (by omega)
    rw [Nat.testBit_lt_two_pow hpa, Nat.testBit_lt_two_pow hpb]

theorem bits_eq_iff_segment_eq (msg h : List Nat) (s : Nat)
    (hmsg : ∀ b ∈ msg, b < 256) (hhb : ∀ b ∈ h, b < 256)
    (hlen : h.length = 32) (hslen : s + 32 ≤ msg.length) :
    (∀ i, i < 256 → bit_at msg (s * 8 + i) = bit_at h i) ↔
      (msg.drop s).take 32 = h := by
  constructor
  · intro hbit
    apply List.ext_getElem?
    intro k
    by_cases hk : k < 32
    · have hk1 : k < ((msg.drop s).take 32).length := by
        rw [List.length_take, List.length_drop]
        omega
      have hk2 : k < h.length := by omega
      have hk3 : s + k < msg.length := by omega
      rw [List.getElem?_eq_getElem hk1, List.getElem?_eq_getElem hk2]
      congr 1
      have hseg : ((msg.drop s).take 32)[k] = msg[s + k] := by
        rw [List.getElem_take, List.getElem_drop]
      rw [hseg]
      apply byte_eq_of_msb_bits_eq (hmsg _ (List.getElem_mem hk3))
        (hhb _ (List.getElem_mem hk2))
      intro j hj
      have hib := hbit (8 * k + j) (by omega)
      simp only [bit_at] at hib
      have e1 : (s * 8 + (8 * k + j)) / 8 = s + k := by omega
      have e2 : (s * 8 + (8 * k + j)) % 8 = j := by omega
      have e3 : (8 * k + j) / 8 = k := by omega
      have e4 : (8 * k + j) % 8 = j := by omega
      rw [e1, e2, e3, e4] at hib
      rw [List.getD_eq_getElem?_getD, List.getElem?_eq_getElem hk3] at hib
      rw [List.getD_eq_getElem?_getD, List.getElem?_eq_getElem hk2] at hib
      exact hib
    · have hk1 : ((msg.drop s).take 32).length ≤ k := by
        rw [List.length_take, List.length_drop]
        omega
      have hk2 : h.length ≤ k := by omega
      rw [List.getElem?_eq_none hk1, List.getElem?_eq_none hk2]
  · intro hseg i hi
    simp only [bit_at]
    have e1 : (s * 8 + i) / 8 = s + i / 8 := by omega
    have e2 : (s * 8 + i) % 8 = i % 8 := by omega
    rw [e1, e2]
    have hk3 : s + i / 8 < msg.length := by omega
    have hk2 : i / 8 < h.length := by omega
    have hk1 : i / 8 < ((msg.drop s).take 32).length := by
      rw [List.length_take, List.length_drop]
      omega
    have hbyte : msg.getD (s + i / 8) 0 = h.getD (i / 8) 0 := by
      rw [List.getD_eq_getElem?_getD, List.getElem?_eq_getElem hk3,
        List.getD_eq_getElem?_getD, List.getElem?_eq_getElem hk2]
      have hs2 : ((msg.drop s).take 32)[i / 8] = msg[s + i / 8] := by
        rw [List.getElem_take, List.getElem_drop]
      have hcg := congrArg (fun l => l[i / 8]?) hseg
      simp only [List.getElem?_eq_getElem hk1, List.getElem?_eq_getElem hk2] at hcg
      rw [hs2] at hcg
      simpa using hcg
    rw [hbyte]

/-- **C5**: the signed-message check uses exactly one fixed byte offset
selected by the caller-supplied `round_present` flag — `16` when no round is
present and `25` when a round is present; it succeeds iff the 32-byte header
hash appears at that offset, with no fallback to the other offset. -/
theorem c5_verify_hash_in_message (message header_hash : List Nat)
    (hm : message.length = 124) (hh : header_hash.length = 32)
    (hmb : ∀ b ∈ message, b < 256) (hhb : ∀ b ∈ header_hash, b < 256) :
    (verify_hash_in_message message header_hash false = true ↔
      (message.drop 16).take 32 = header_hash) ∧
    (verify_hash_in_message message header_hash true = true ↔
      (message.drop 25).take 32 = header_hash) := by
  constructor
  · rw [verify_hash_in_message]
    simp only [Bool.if_false_left, List.all_eq_true, List.mem_range, beq_iff_eq,
      if_neg (by simp : ¬ false = true)]
    exact bits_eq_iff_segment_eq message header_hash 16 hmb hhb hh (by omega)
  · rw [verify_hash_in_message]
    simp only [List.all_eq_true, List.mem_range, beq_iff_eq, if_pos rfl]
    exact bits_eq_iff_segment_eq message header_hash 25 hmb hhb hh (by omega)

/-- Witness for C5 on a concrete 124-byte message. -/
theorem c5_verify_hash_in_message_witness :
    ((List.replicate 124 0 : List Nat).length = 124 ∧
      (List.replicate 32 0 : List Nat).length = 32 ∧
      (∀ b ∈ (List.replicate 124 0 : List Nat), b < 256) ∧
      (∀ b ∈ (List.replicate 32 0 : List Nat), b < 256)) ∧
    ((verify_hash_in_message (List.replicate 124 0) (List.replicate 32 0) false = true ↔
      ((List.replicate 124 0 : List Nat).drop 16).take 32 = List.replicate 32 0) ∧
    (verify_hash_in_message (List.replicate 124 0) (List.replicate 32 0) true = true ↔
      ((List.replicate 124 0 : List Nat).drop 25).take 32 = List.replicate 32 0)) :=
  ⟨⟨by decide, by decide, by decide, by decide⟩,
    c5_verify_hash_in_message (List.replicate 124 0) (List.replicate 32 0)
      (by decide) (by decide) (by decide) (by decide)⟩

/-- General spec of `voting_power_greater_than_threshold`: when neither
overflow-checked product fails, the result is the comparison
`accumulated * den >= total * num`. -/
theorem voting_power_greater_than_threshold_spec (a t : I64) (num den : Nat)
    (ha1 : a.lo < U32_MOD) (ha2 : a.hi < U32_MOD)
    (ht1 : t.lo < U32_MOD) (ht2 : t.hi < U32_MOD)
    (h1 : a.val * den < U32_MOD * U32_MOD) (h2 : t.val * num < U32_MOD * U32_MOD) :
    voting_power_greater_than_threshold a t num den =
      some (decide (t.val * num ≤ a.val * den)) := by
  obtain ⟨sa, hsa, hsaval, hsa1, hsa2⟩ := (mul_i64_by_u32_spec a den).1 h1
  obtain ⟨st, hst, hstval, hst1, hst2⟩ := (mul_i64_by_u32_spec t num).1 h2
  simp only [voting_power_greater_than_threshold]
  rw [hsa, hst]
  dsimp only
  have hgte := is_i64_gte_spec sa st hsa1 hsa2 hst1 hst2
  congr 1
  by_cases hd : t.val * num ≤ a.val * den
  · rw [decide_eq_true hd]
    exact hgte.mpr (by rw [hsaval, hstval]; exact hd)
  · rw [decide_eq_false hd]
    apply Bool.eq_false_iff.mpr
    intro hcon
    have := hgte.mp hcon
    rw [hsaval, hstval] at this
    exact hd this

/-- **C2**: the threshold check multiplies the accumulated power by the
denominator and the total power by the numerator with overflow-checked wide
(two-limb) arithmetic and returns `accumulated * den >= total * num`; when
either product overflows 64 bits it fails instead.  In particular with
threshold `2/3`: a validator list whose enabled voting powers sum to exactly
two thirds of the total passes `check_voting_power`, and at one unit less it
fails. -/
theorem c2_voting_power_threshold (a t : I64) (num den : Nat)
    (ha1 : a.lo < U32_MOD) (ha2 : a.hi < U32_MOD)
    (ht1 : t.lo < U32_MOD) (ht2 : t.hi < U32_MOD) :
    (a.val * den < U32_MOD * U32_MOD → t.val * num < U32_MOD * U32_MOD →
      voting_power_greater_than_threshold a t num den =
        some (decide (t.val * num ≤ a.val * den))) ∧
    (U32_MOD * U32_MOD ≤ a.val * den ∨ U32_MOD * U32_MOD ≤ t.val * num →
      voting_power_greater_than_threshold a t num den = none) ∧
    (∀ (vps : List I64) (enabled : List Nat) (k : Nat),
      (∀ v ∈ vps, v.lo < U32_MOD ∧ v.hi < U32_MOD) →
      (∀ e ∈ enabled, e ≤ 1) →
      0 < k → t.val = 3 * k → 2 * t.val < U32_MOD * U32_MOD →
      ((((vps.zip enabled).map fun p => p.1.val * p.2).sum = 2 * k →
        check_voting_power vps enabled t 2 3 = some true) ∧
      ((((vps.zip enabled).map fun p => p.1.val * p.2).sum = 2 * k - 1) →
        check_voting_power vps enabled t 2 3 = some false))) := by
  refine ⟨voting_power_greater_than_threshold_spec a t num den ha1 ha2 ht1 ht2, ?_, ?_⟩
  · intro hov
    simp only [voting_power_greater_than_threshold]
    rcases hov with hov | hov
    · rw [(mul_i64_by_u32_spec a den).2 hov]
    · cases hma : mul_i64_by_u32 a den with
      | none => rfl
      | some sa =>
        dsimp only
        rw [(mul_i64_by_u32_spec t num).2 hov]
  · intro vps enabled k hwf hen hk ht3 hbound
    have hwfz : ∀ p ∈ vps.zip enabled,
        p.1.lo < U32_MOD ∧ p.1.hi < U32_MOD ∧ p.2 ≤ 1 := by
      intro p hp
      have := List.of_mem_zip hp
      exact ⟨(hwf p.1 this.1).1, (hwf p.1 this.1).2, hen p.2 this.2⟩
    have hlo : (I64.mk 0 0).lo = 0 := rfl
    have hhi : (I64.mk 0 0).hi = 0 := rfl
    have hval0 : (I64.mk 0 0).val = 0 := rfl
    have hspec := accumulate_voting_power_spec (vps.zip enabled) (I64.mk 0 0) hwfz
      (by rw [hlo]; unfold U32_MOD; omega) (by rw [hhi]; unfold U32_MOD; omega)
    constructor
    · intro hsum
      obtain ⟨c, hc, hcval, hc1, hc2⟩ := hspec.1 (by rw [hval0, hsum]; omega)
      rw [hval0, hsum] at hcval
      simp only [check_voting_power]
      rw [hc]
      dsimp only
      rw [voting_power_greater_than_threshold_spec c t 2 3 hc1 hc2 ht1 ht2
        (by rw [hcval]; omega) (by omega)]
      rw [decide_eq_true (by rw [hcval]; omega : t.val * 2 ≤ c.val * 3)]
    · intro hsum
      obtain ⟨c, hc, hcval, hc1, hc2⟩ := hspec.1 (by rw [hval0, hsum]; omega)
      rw [hval0, hsum] at hcval
      simp only [check_voting_power]
      rw [hc]
      dsimp only
      rw [voting_power_greater_than_threshold_spec c t 2 3 hc1 hc2 ht1 ht2
        (by rw [hcval]; omega) (by omega)]
      rw [decide_eq_false (by rw [hcval]; omega : ¬ t.val * 2 ≤ c.val * 3)]

/-- Witness for C2: total power `9`, two validators of power `3` enabled
(`k = 3`, accumulated `6`); also the exact-threshold and one-less cases. -/
theorem c2_voting_power_threshold_witness :
    ((I64.mk 6 0).lo < U32_MOD ∧ (I64.mk 6 0).hi < U32_MOD ∧
      (I64.mk 9 0).lo < U32_MOD ∧ (I64.mk 9 0).hi < U32_MOD) ∧
    (((I64.mk 6 0).val * 3 < U32_MOD * U32_MOD →
        (I64.mk 9 0).val * 2 < U32_MOD * U32_MOD →
      voting_power_greater_than_threshold (I64.mk 6 0) (I64.mk 9 0) 2 3 =
        some (decide ((I64.mk 9 0).val * 2 ≤ (I64.mk 6 0).val * 3))) ∧
    (U32_MOD * U32_MOD ≤ (I64.mk 6 0).val * 3 ∨
        U32_MOD * U32_MOD ≤ (I64.mk 9 0).val * 2 →
      voting_power_greater_than_threshold (I64.mk 6 0) (I64.mk 9 0) 2 3 = none) ∧
    (∀ (vps : List I64) (enabled : List Nat) (k : Nat),
      (∀ v ∈ vps, v.lo < U32_MOD ∧ v.hi < U32_MOD) →
      (∀ e ∈ enabled, e ≤ 1) →
      0 < k → (I64.mk 9 0).val = 3 * k → 2 * (I64.mk 9 0).val < U32_MOD * U32_MOD →
      ((((vps.zip enabled).map fun p => p.1.val * p.2).sum = 2 * k →
        check_voting_power vps enabled (I64.mk 9 0) 2 3 = some true) ∧
      ((((vps.zip enabled).map fun p => p.1.val * p.2).sum = 2 * k - 1) →
        check_voting_power vps enabled (I64.mk 9 0) 2 3 = some false)))) :=
  ⟨⟨by decide, by decide, by decide, by decide⟩,
    c2_voting_power_threshold (I64.mk 6 0) (I64.mk 9 0) 2 3 (by decide) (by decide)
      (by decide) (by decide)⟩
